import Mathlib

/-!
Shallow embedding of `src/board.py` (QuantumT3), the board state machine of a
quantum tic-tac-toe variant, together with proofs checking the natural-language
specification's claims against it.

Encoding of the Python data:
* a cell string is encoded as a `Cell`: `' '` ↦ `Cell.empty`, `'X'` ↦
  `Cell.classical Mark.X`, `'O'` ↦ `Cell.classical Mark.O`, `'X?'` ↦
  `Cell.pending Mark.X`, `'O?'` ↦ `Cell.pending Mark.O`;
* Python list indexing (which wraps indices in `[-len, 0)` and raises
  `IndexError` outside `[-len, len)`) is encoded by `pyIdx` / `pyGet`, with
  `Option`: `none` models an uncaught exception escaping the method;
* `range(start, stop, step)` is `pyRange`, `none` modelling the `ValueError`
  raised on a zero step;
* the quantum circuit built up by the methods is recorded as the list of
  issued instructions (`Gate`), standing in for the backend session; the
  sampled counts dictionary returned by the simulator in `collapse_board` is
  an explicit input `List (List Bool × Nat)` (bitstring in qiskit order,
  leftmost character first, paired with its shot count);
* methods that in Python return `True`/`False` return `Option (Board × Bool)`:
  `some (b', ok)` is a normal return with the updated object state, `none` a
  raised exception.
-/

inductive Mark : Type where
  | X : Mark
  | O : Mark
deriving DecidableEq, Repr, Fintype

inductive Cell : Type where
  | empty : Cell
  | classical (m : Mark) : Cell
  | pending (m : Mark) : Cell
deriving DecidableEq, Repr, Fintype

/-- The Python test `cell.endswith('?')` on the five cell strings. -/
def Cell.isPending : Cell → Bool
  | Cell.pending _ => true
  | _ => false

/-- One instruction appended to `self.circuit`; the index arguments are the
integers the Python code computes (possibly out of range or negative, as the
code itself never validates them). -/
inductive Gate : Type where
  | reset : Gate
  | barrier : Gate
  | x (i : Int) : Gate
  | idGate (i : Int) : Gate
  | h (i : Int) : Gate
  | cx (i j : Int) : Gate
  | ccx (i j k : Int) : Gate
  | swap (i j : Int) : Gate
  | measure : Gate
deriving DecidableEq, Repr

/-- Python list index resolution: indices in `[-len, 0)` wrap by adding `len`;
a resolved index outside `[0, len)` raises `IndexError` (`none`). -/
def pyIdx (len : Nat) (i : Int) : Option Nat :=
  let j : Int := if i < 0 then i + (len : Int) else i
  if 0 ≤ j ∧ j < (len : Int) then some j.toNat else none

/-- Python `l[i]` (read). -/
def pyGet {α : Type} (l : List α) (i : Int) : Option α :=
  (pyIdx l.length i).bind (fun n => l[n]?)

/-- Python `cells[r][c]` (read). -/
def getCellGrid (cells : List (List Cell)) (r c : Int) : Option Cell :=
  (pyGet cells r).bind (fun row => pyGet row c)

/-- Python `cells[r][c] = v` (write, replacing row `r` by its updated copy). -/
def setCellGrid (cells : List (List Cell)) (r c : Int) (v : Cell) :
    Option (List (List Cell)) :=
  (pyIdx cells.length r).bind (fun rn =>
    cells[rn]?.bind (fun row =>
      (pyIdx row.length c).map (fun cn => cells.set rn (row.set cn v))))

/-- Python `range(start, stop, step)` as a list; `none` is the `ValueError`
on `step = 0`. -/
def pyRange (start stop step : Int) : Option (List Int) :=
  if step = 0 then none
  else if 0 < step then
    some ((List.range ((stop - start + step - 1).fdiv step).toNat).map
      (fun (k : Nat) => start + ((k : Int)) * step))
  else
    some ((List.range ((start - stop + (-step) - 1).fdiv (-step)).toNat).map
      (fun (k : Nat) => start + ((k : Int)) * step))

/-- The board/session object: the fields of `Board.__init__` that carry game
state (the simulator handle has no state of its own and is dropped; the
register objects are determined by `size`). -/
structure Board : Type where
  size : Nat
  entanglementCount : Nat
  cells : List (List Cell)
  winningLines : List (List Int)
  circuit : List Gate
deriving DecidableEq, Repr

/-- Python `[[' ' for _ in range(size)] for _ in range(size)]`. -/
def initCells (size : Nat) : List (List Cell) :=
  List.replicate size (List.replicate size Cell.empty)

/-- The `winning_lines` expression of `Board.__init__`: the `size` column
tuples `range(i, size**2, size)`, then the `size` row tuples
`range(i*size, (i+1)*size)`, then the two diagonal tuples
`range(0, size**2, size+1)` and `range(size-1, size**2-1, size-1)`.
`none` models the `ValueError` a zero `range` step raises (`size = 1`). -/
def winningLinesPy (size : Nat) : Option (List (List Int)) :=
  ((List.range size).mapM (fun (i : Nat) =>
      pyRange ((i : Int)) ((size : Int) ^ 2) ((size : Int)))).bind (fun cols =>
  ((List.range size).mapM (fun (i : Nat) =>
      pyRange ((i : Int) * ((size : Int))) (((i : Int) + 1) * ((size : Int)))
        1)).bind (fun rows =>
  (pyRange 0 ((size : Int) ^ 2) ((size : Int) + 1)).bind (fun d1 =>
  (pyRange ((size : Int) - 1) ((size : Int) ^ 2 - 1) ((size : Int) - 1)).map
    (fun d2 => cols ++ rows ++ [d1, d2]))))

/-- Constructor `Board.__init__(size)`: fresh counter, empty cells, the precomputed
winning lines, and the initial circuit prologue (`reset` on the register,
then a barrier). `none` models the constructor raising (`size = 1`). -/
def Board.init (size : Nat) : Option Board :=
  (winningLinesPy size).map (fun wl =>
    { size := size
      entanglementCount := 0
      cells := initCells size
      winningLines := wl
      circuit := [Gate.reset, Gate.barrier] })

/-- Method `Board.make_classical_move(row, col, player_mark)`. The Python code reads
`self.cells[row][col]`; if it is `' '` it writes the mark, appends an `x` gate
for `'X'` (an `id` gate otherwise) at index `row*size+col`, and returns
`True`; otherwise it returns `False` unchanged. -/
def makeClassicalMove (b : Board) (row col : Int) (mark : Mark) :
    Option (Board × Bool) :=
  (getCellGrid b.cells row col).bind (fun cur =>
    if cur = Cell.empty then
      (setCellGrid b.cells row col (Cell.classical mark)).map (fun cells' =>
        let index : Int := row * (b.size : Int) + col
        let g : Gate := match mark with
          | Mark.X => Gate.x index
          | Mark.O => Gate.idGate index
        ({ b with cells := cells', circuit := b.circuit ++ [g] }, true))
    else some (b, false))

/-- Method `Board.make_swap_move(row1, col1, row2, col2)`. The guard
`cells[row1][col1] != ' ' and cells[row2][col2] != ' '` short-circuits: the
second read happens only if the first cell is non-empty. On success a `swap`
gate is appended and the two cell values are exchanged. -/
def makeSwapMove (b : Board) (row1 col1 row2 col2 : Int) :
    Option (Board × Bool) :=
  (getCellGrid b.cells row1 col1).bind (fun cell1 =>
    if cell1 = Cell.empty then some (b, false)
    else
      (getCellGrid b.cells row2 col2).bind (fun cell2 =>
        if cell2 = Cell.empty then some (b, false)
        else
          (setCellGrid b.cells row1 col1 cell2).bind (fun cells1 =>
            (setCellGrid cells1 row2 col2 cell1).map (fun cells2 =>
              ({ b with
                  cells := cells2
                  circuit := b.circuit ++
                    [Gate.swap (row1 * (b.size : Int) + col1)
                      (row2 * (b.size : Int) + col2)] }, true)))))

/-- The generator `any(self.cells[row][col] != ' ' for row, col in positions)`
of `make_entangled_move`: sequential reads, stopping at the first non-empty
cell; `none` models an `IndexError` raised by a read. -/
def anyOccupied (cells : List (List Cell)) :
    List (Int × Int) → Option Bool
  | [] => some false
  | (r, c) :: rest =>
    (getCellGrid cells r c).bind (fun cell =>
      if cell = Cell.empty then anyOccupied cells rest else some true)

/-- The loop `for row, col in positions: self.cells[row][col] = mark + '?'`
of `make_entangled_move`: sequential writes. -/
def setAllPending (mark : Mark) (cells : List (List Cell)) :
    List (Int × Int) → Option (List (List Cell))
  | [] => some cells
  | (r, c) :: rest =>
    (setCellGrid cells r c (Cell.pending mark)).bind (fun cells' =>
      setAllPending mark cells' rest)

/-- The gates `make_entangled_move` appends on success: Hadamard on the first
index and a CNOT for a pair; Hadamard, CNOT and Toffoli for a triple. -/
def entangleGates (indices : List Int) : List Gate :=
  match indices with
  | [i0, i1] => [Gate.h i0, Gate.cx i0 i1]
  | [i0, i1, i2] => [Gate.h i0, Gate.cx i0 i1, Gate.ccx i0 i1 i2]
  | _ => []

/-- Method `Board.make_entangled_move(*positions, player_mark)`. Checks, in the
code's order: the arity is 2 or 3; no named cell is occupied (raising on an
out-of-range read); the positions (as coordinate pairs) have no duplicate.
On success it appends the entangling gates, marks every named cell
`Pending(mark)` and increments the entanglement counter. -/
def makeEntangledMove (b : Board) (positions : List (Int × Int))
    (mark : Mark) : Option (Board × Bool) :=
  if ¬ (positions.length = 2 ∨ positions.length = 3) then some (b, false)
  else
    (anyOccupied b.cells positions).bind (fun occ =>
      if occ then some (b, false)
      else if ¬ positions.Nodup then some (b, false)
      else
        let indices := positions.map
          (fun p => p.1 * (b.size : Int) + p.2)
        (setAllPending mark b.cells positions).map (fun cells' =>
          ({ b with
              cells := cells'
              circuit := b.circuit ++ entangleGates indices
              entanglementCount := b.entanglementCount + 1 }, true)))

/-- Python `self.cells[i // self.size][i % self.size]`, the cell addressed by
flat index `i` (floor division and Python modulus, as in the source). -/
def cellAtIdx (b : Board) (i : Int) : Option Cell :=
  getCellGrid b.cells (i.fdiv (b.size : Int)) (i.fmod (b.size : Int))

/-- The generator `all(self.cells[...].endswith('?') for i in line)` of
`can_be_collapsed`: sequential reads, stopping at the first non-pending
cell. -/
def allPendingLine (b : Board) : List Int → Option Bool
  | [] => some true
  | i :: rest =>
    (cellAtIdx b i).bind (fun cell =>
      if cell.isPending then allPendingLine b rest else some false)

/-- The `for line in self.winning_lines` scan of `can_be_collapsed`:
returns `True` at the first line whose every cell is pending. -/
def findPendingLine (b : Board) : List (List Int) → Option Bool
  | [] => some false
  | line :: rest =>
    (allPendingLine b line).bind (fun full =>
      if full then some true else findPendingLine b rest)

/-- Method `Board.can_be_collapsed()`: true iff the entanglement counter is at least
3 and some winning line consists entirely of pending cells. -/
def canBeCollapsed (b : Board) : Option Bool :=
  if 3 ≤ b.entanglementCount then findPendingLine b b.winningLines
  else some false

/-- Python `max(counts, key=counts.get)` over a dict in insertion order: the
first key whose count is maximal (a later key replaces the current one only
when strictly greater). -/
def pyMaxGo {α : Type} (k : α) (v : Nat) : List (α × Nat) → α
  | [] => k
  | (k', v') :: rest => if v < v' then pyMaxGo k' v' rest else pyMaxGo k v rest

/-- Python `max(counts, key=counts.get)`; `none` models the `ValueError` on
an empty counts dict. -/
def pyMaxByVal {α : Type} : List (α × Nat) → Option α
  | [] => none
  | (k, v) :: rest => some (pyMaxGo k v rest)

/-- The update loop of `collapse_board` over flat indices: a pending cell at
index `i` becomes `Classical(X)` when bit `i` of the reversed best outcome is
1, `Classical(O)` otherwise; other cells are skipped. `maxState` is already
the reversed string, indexed left to right as in `max_state[i]`. -/
def collapseLoop (size : Nat) (maxState : List Bool) :
    List (List Cell) → List Nat → Option (List (List Cell))
  | cells, [] => some cells
  | cells, i :: rest =>
    (getCellGrid cells ((i : Int).fdiv (size : Int))
        ((i : Int).fmod (size : Int))).bind (fun cell =>
      if cell.isPending then
        (pyGet maxState (i : Int)).bind (fun bit =>
          (setCellGrid cells ((i : Int).fdiv (size : Int))
              ((i : Int).fmod (size : Int))
              (if bit then Cell.classical Mark.X
               else Cell.classical Mark.O)).bind (fun cells' =>
            collapseLoop size maxState cells' rest))
      else collapseLoop size maxState cells rest)

/-- Method `Board.collapse_board()`. The simulator's counts dict is the explicit
input `counts` (each key a bitstring in qiskit order with its shot count).
The method appends a barrier and the measurement, picks
`max(counts, key=counts.get)` reversed (`[::-1]`), rewrites every pending
cell from that bitstring, zeroes the entanglement counter and returns the
counts. `none` models a raised exception (empty counts, or a bad index). -/
def collapseBoard (b : Board) (counts : List (List Bool × Nat)) :
    Option (Board × List (List Bool × Nat)) :=
  (pyMaxByVal counts).bind (fun best =>
    let maxState := best.reverse
    (collapseLoop b.size maxState b.cells (List.range (b.size ^ 2))).map
      (fun cells' =>
        ({ b with
            cells := cells'
            circuit := b.circuit ++ [Gate.barrier, Gate.measure]
            entanglementCount := 0 }, counts)))

/-- The value `Board.check_win()` returns: the winning cell string, `'Draw'`,
the integer entanglement counter, or `None`. -/
inductive GameResult : Type where
  | winner (c : Cell) : GameResult
  | draw : GameResult
  | collapseNeeded (n : Nat) : GameResult
  | noResult : GameResult
deriving DecidableEq, Repr

/-- The generator `all(self.cells[...] == first_cell for i in line)` of
`check_win`: sequential reads, stopping at the first mismatch. -/
def lineAllEq (b : Board) (fc : Cell) : List Int → Option Bool
  | [] => some true
  | i :: rest =>
    (cellAtIdx b i).bind (fun cell =>
      if cell = fc then lineAllEq b fc rest else some false)

/-- The `for line in self.winning_lines` scan of `check_win`: reads
`line[0]`'s cell as `first_cell`, checks the whole line equals it, and
returns it when it is none of `' '`, `'X?'`, `'O?'`. -/
def scanWin (b : Board) : List (List Int) → Option (Option Cell)
  | [] => some none
  | line :: rest =>
    (pyGet line 0).bind (fun i0 =>
      (cellAtIdx b i0).bind (fun fc =>
        (lineAllEq b fc line).bind (fun same =>
          if same ∧ fc ∉ [Cell.empty, Cell.pending Mark.X,
              Cell.pending Mark.O] then
            some (some fc)
          else scanWin b rest)))

/-- The generator `all(self.cells[...] not in [' '] for i in range(size**2))`
of `check_win`. -/
def allFilled (b : Board) : List Nat → Option Bool
  | [] => some true
  | i :: rest =>
    (cellAtIdx b (i : Int)).bind (fun cell =>
      if cell = Cell.empty then some false else allFilled b rest)

/-- Method `Board.check_win()`: a full winning line of equal non-empty, non-pending
cells wins; otherwise a full board yields `'Draw'` when the counter is 0 and
the counter value when it is positive; otherwise `None`. -/
def checkWin (b : Board) : Option GameResult :=
  (scanWin b b.winningLines).bind (fun w =>
    match w with
    | some fc => some (GameResult.winner fc)
    | none =>
      (allFilled b (List.range (b.size ^ 2))).map (fun filled =>
        if filled then
          if b.entanglementCount = 0 then GameResult.draw
          else GameResult.collapseNeeded b.entanglementCount
        else GameResult.noResult))

/-! ### Derived notions used to state the claims -/

/-- A `size × size` grid: the shape `Board.__init__` establishes and every
method preserves. -/
def GridWF (size : Nat) (cells : List (List Cell)) : Prop :=
  cells.length = size ∧ ∀ row ∈ cells, row.length = size

instance (size : Nat) (cells : List (List Cell)) :
    Decidable (GridWF size cells) := by
  unfold GridWF; infer_instance

/-- Reading the cell at row `r`, column `c` with plain (non-negative,
non-wrapping) indices. -/
def cellNat (cells : List (List Cell)) (r c : Nat) : Option Cell :=
  cells[r]?.bind (fun row => row[c]?)

/-- Every flat index of every recorded winning line addresses a readable
cell. On any board the constructor can produce this holds; it rules out
boards with corrupted `winning_lines`. -/
def LinesReadable (b : Board) : Prop :=
  ∀ line ∈ b.winningLines, ∀ i ∈ line, (cellAtIdx b i).isSome

instance (b : Board) : Decidable (LinesReadable b) := by
  unfold LinesReadable; infer_instance

/-- Coordinates given as plain grid positions, in the form the move methods
receive them. -/
def intPos (ps : List (Nat × Nat)) : List (Int × Int) :=
  ps.map (fun p => ((p.1 : Int), (p.2 : Int)))

/-- An index the Python indexing of a length-`len` list accepts: inside
`[-len, len)` (negative values wrap). -/
def InWindow (len : Nat) (i : Int) : Prop :=
  -(len : Int) ≤ i ∧ i < (len : Int)

instance (len : Nat) (i : Int) : Decidable (InWindow len i) := by
  unfold InWindow; infer_instance

/-- Modelled from the spec: the support of the weighted outcome distribution
the backend samples from — every joint assignment of positive weight. The
spec's resolution step draws the committed bitstring from this distribution
with probability proportional to its weight, so every member must be a
possible committed outcome. -/
def specSampleSupport (counts : List (List Bool × Nat)) : List (List Bool) :=
  (counts.filter (fun p => decide (0 < p.2))).map Prod.fst

/-- The row index-tuples of the `n × n` grid, as the spec describes winning
lines (spec-side definition, for comparison with `winningLinesPy`). -/
def specRows (n : Nat) : List (List Nat) :=
  (List.range n).map (fun r => (List.range n).map (fun c => r * n + c))

/-- The column index-tuples of the `n × n` grid (spec-side definition). -/
def specCols (n : Nat) : List (List Nat) :=
  (List.range n).map (fun c => (List.range n).map (fun r => r * n + c))

/-- The main-diagonal index-tuple of the `n × n` grid (spec-side
definition). -/
def specDiag (n : Nat) : List Nat :=
  (List.range n).map (fun i => i * n + i)

/-- The anti-diagonal index-tuple of the `n × n` grid (spec-side
definition). -/
def specAntiDiag (n : Nat) : List Nat :=
  (List.range n).map (fun i => i * n + (n - 1 - i))

/-! ### Concrete boards used by the witnesses -/

/-- The board `Board(3)` constructs. -/
def boardEmpty3 : Board :=
  { size := 3
    entanglementCount := 0
    cells := initCells 3
    winningLines := [[0, 3, 6], [1, 4, 7], [2, 5, 8], [0, 1, 2], [3, 4, 5],
      [6, 7, 8], [0, 4, 8], [2, 4, 6]]
    circuit := [Gate.reset, Gate.barrier] }

/-- A mid-game 3×3 board: the whole top row pending, the centre classical,
three entanglements recorded. -/
def boardPending3 : Board :=
  { boardEmpty3 with
    entanglementCount := 3
    cells := [[Cell.pending Mark.X, Cell.pending Mark.X, Cell.pending Mark.O],
              [Cell.empty, Cell.classical Mark.O, Cell.empty],
              [Cell.empty, Cell.empty, Cell.empty]] }

/-- A 3×3 board whose top row is three classical `X` marks. -/
def boardWin3 : Board :=
  { boardEmpty3 with
    cells := [[Cell.classical Mark.X, Cell.classical Mark.X,
                Cell.classical Mark.X],
              [Cell.empty, Cell.empty, Cell.empty],
              [Cell.empty, Cell.empty, Cell.empty]] }

/-- A full, drawn 3×3 board of classical marks with no completed line. -/
def boardDraw3 : Board :=
  { boardEmpty3 with
    cells := [[Cell.classical Mark.X, Cell.classical Mark.X,
                Cell.classical Mark.O],
              [Cell.classical Mark.O, Cell.classical Mark.O,
                Cell.classical Mark.X],
              [Cell.classical Mark.X, Cell.classical Mark.X,
                Cell.classical Mark.O]] }

/-- A full 3×3 board holding two still-pending cells, two entanglements
recorded. -/
def boardFullPending3 : Board :=
  { boardEmpty3 with
    entanglementCount := 2
    cells := [[Cell.pending Mark.X, Cell.classical Mark.X,
                Cell.classical Mark.O],
              [Cell.classical Mark.O, Cell.classical Mark.O,
                Cell.classical Mark.X],
              [Cell.classical Mark.X, Cell.classical Mark.X,
                Cell.pending Mark.O]] }

/-- A counts dictionary with two outcomes: the all-zero bitstring seen three
times and, seen once, the bitstring whose reversed bit 0 (cell 0) is 1. -/
def countsTwo : List (List Bool × Nat) :=
  [(List.replicate 9 false, 3),
   ([false, false, false, false, false, false, false, false, true], 1)]

/-! ### Basic lemmas about the Python indexing primitives -/

theorem pyIdx_natCast (len n : Nat) :
    pyIdx len (n : Int) = if n < len then some n else none := by
  unfold pyIdx
  have h0 : ¬ ((n : Int) < 0) := by exact_mod_cast Int.not_lt.mpr (Int.ofNat_nonneg n)
  simp only [h0, if_false]
  by_cases h : n < len
  · rw [if_pos ⟨Int.ofNat_nonneg n, by exact_mod_cast h⟩, if_pos h, Int.toNat_natCast]
  · rw [if_neg, if_neg h]
    intro hc
    exact h (by exact_mod_cast hc.2)

theorem pyIdx_eq_none_iff (len : Nat) (i : Int) :
    pyIdx len i = none ↔ ¬ InWindow len i := by
  unfold pyIdx InWindow
  by_cases hneg : i < 0
  · simp only [if_pos hneg]
    constructor
    · intro h hc
      rw [if_pos] at h
      · exact Option.noConfusion h
      · constructor
        · omega
        · omega
    · intro h
      rw [if_neg]
      intro hc
      exact h ⟨by omega, by omega⟩
  · simp only [if_neg hneg]
    constructor
    · intro h hc
      rw [if_pos] at h
      · exact Option.noConfusion h
      · exact ⟨by omega, hc.2⟩
    · intro h
      rw [if_neg]
      intro hc
      exact h ⟨by omega, hc.2⟩

theorem pyGet_natCast {α : Type} (l : List α) (n : Nat) :
    pyGet l (n : Int) = l[n]? := by
  unfold pyGet
  rw [pyIdx_natCast]
  by_cases h : n < l.length
  · rw [if_pos h]; rfl
  · rw [if_neg h, Option.none_bind, eq_comm, List.getElem?_eq_none]
    omega

theorem getCellGrid_natCast (cells : List (List Cell)) (r c : Nat) :
    getCellGrid cells (r : Int) (c : Int) = cellNat cells r c := by
  unfold getCellGrid cellNat
  rw [pyGet_natCast]
  cases hrow : cells[r]? with
  | none => rfl
  | some row =>
    simp only [Option.some_bind]
    exact pyGet_natCast row c

theorem setCellGrid_natCast (cells : List (List Cell)) (r c : Nat)
    (row : List Cell) (hrow : cells[r]? = some row) (hc : c < row.length)
    (v : Cell) :
    setCellGrid cells (r : Int) (c : Int) v =
      some (cells.set r (row.set c v)) := by
  have hr : r < cells.length := by
    by_contra h
    rw [List.getElem?_eq_none (by omega)] at hrow
    exact Option.noConfusion hrow
  unfold setCellGrid
  rw [pyIdx_natCast, if_pos hr]
  simp only [Option.some_bind, hrow]
  rw [pyIdx_natCast, if_pos hc]
  rfl

theorem cellNat_isSome_of_wf {size : Nat} {cells : List (List Cell)}
    (hwf : GridWF size cells) {r c : Nat} (hr : r < size) (hc : c < size) :
    ∃ cell, cellNat cells r c = some cell := by
  obtain ⟨hlen, hrows⟩ := hwf
  have hr' : r < cells.length := by omega
  obtain ⟨row, hrow⟩ : ∃ row, cells[r]? = some row :=
    ⟨cells[r], List.getElem?_eq_getElem hr'⟩
  have hmem : row ∈ cells := List.getElem?_mem hrow
  have hrl : row.length = size := hrows row hmem
  refine ⟨row.get ⟨c, by omega⟩, ?_⟩
  unfold cellNat
  rw [hrow, Option.some_bind, List.getElem?_eq_getElem (by omega)]
  rfl

theorem cellNat_set_self {size : Nat} {cells : List (List Cell)}
    (hwf : GridWF size cells) {r c : Nat} (hr : r < size) (hc : c < size)
    {row : List Cell} (hrow : cells[r]? = some row) (v : Cell) :
    cellNat (cells.set r (row.set c v)) r c = some v := by
  obtain ⟨hlen, hrows⟩ := hwf
  have hr' : r < cells.length := by omega
  have hrl : row.length = size := hrows row (List.getElem?_mem hrow)
  unfold cellNat
  rw [List.getElem?_set_self (by simpa using hr'), Option.some_bind,
    List.getElem?_set_self (by omega)]

theorem cellNat_set_ne {cells : List (List Cell)} {r c : Nat}
    {row : List Cell} (hrow : cells[r]? = some row) (v : Cell)
    {r' c' : Nat} (hne : (r', c') ≠ (r, c)) :
    cellNat (cells.set r (row.set c v)) r' c' = cellNat cells r' c' := by
  unfold cellNat
  by_cases hrr : r' = r
  · have hcc : c' ≠ c := by
      intro h; exact hne (by rw [hrr, h])
    have hr' : r < cells.length := by
      rcases List.getElem?_eq_some_iff.mp hrow with ⟨h, _⟩
      exact h
    rw [hrr, List.getElem?_set_self (by simpa using hr'), Option.some_bind,
      hrow, Option.some_bind, List.getElem?_set_ne (by omega)]
  · rw [List.getElem?_set_ne (by omega)]

theorem gridWF_set {size : Nat} {cells : List (List Cell)}
    (hwf : GridWF size cells) {r : Nat} {row : List Cell}
    (hrow : cells[r]? = some row) (c : Nat) (v : Cell) :
    GridWF size (cells.set r (row.set c v)) := by
  obtain ⟨hlen, hrows⟩ := hwf
  refine ⟨by simpa using hlen, ?_⟩
  intro row' hmem
  rcases List.mem_or_eq_of_mem_set hmem with h | h
  · exact hrows row' h
  · subst h
    simpa using hrows row (List.getElem?_mem hrow)

theorem cellNat_eq_some_iff {cells : List (List Cell)} {r c : Nat} {v : Cell} :
    cellNat cells r c = some v ↔
      ∃ row, cells[r]? = some row ∧ row[c]? = some v := by
  unfold cellNat
  cases cells[r]? with
  | none => simp
  | some row => simp

/-- C8: `make_classical_move` succeeds exactly on an empty in-range cell, in
which case it writes `Classical(mark)` there and changes no other cell, no
counter and no winning line; on an occupied cell it returns the boolean
failure `False` with the object unchanged (the same `Board` value — cells,
counter and circuit untouched). -/
theorem makeClassicalMove_spec (b : Board) (hwf : GridWF b.size b.cells)
    (r c : Nat) (hr : r < b.size) (hc : c < b.size) (mark : Mark) :
    (cellNat b.cells r c = some Cell.empty →
      ∃ b', makeClassicalMove b ((r : Nat) : Int) ((c : Nat) : Int) mark =
          some (b', true) ∧
        cellNat b'.cells r c = some (Cell.classical mark) ∧
        (∀ r' c', (r', c') ≠ (r, c) →
          cellNat b'.cells r' c' = cellNat b.cells r' c') ∧
        b'.entanglementCount = b.entanglementCount ∧
        b'.size = b.size ∧ b'.winningLines = b.winningLines ∧
        GridWF b.size b'.cells) ∧
    (∀ cell, cellNat b.cells r c = some cell → cell ≠ Cell.empty →
      makeClassicalMove b ((r : Nat) : Int) ((c : Nat) : Int) mark =
        some (b, false)) := by
  constructor
  · intro hemp
    obtain ⟨row, hrow, hcv⟩ := cellNat_eq_some_iff.mp hemp
    have hclen : c < row.length := by
      rcases List.getElem?_eq_some_iff.mp hcv with ⟨h, _⟩
      exact h
    unfold makeClassicalMove
    rw [getCellGrid_natCast, hemp, Option.some_bind, if_pos rfl,
      setCellGrid_natCast b.cells r c row hrow hclen]
    refine ⟨_, rfl, ?_, ?_, rfl, rfl, rfl, ?_⟩
    · exact cellNat_set_self hwf hr hc hrow _
    · intro r' c' hne
      exact cellNat_set_ne hrow _ hne
    · exact gridWF_set hwf hrow c _
  · intro cell hcell hne
    unfold makeClassicalMove
    rw [getCellGrid_natCast, hcell, Option.some_bind, if_neg hne]

/-- Witness for `makeClassicalMove_spec`: `Board(3)`, cell (0,0), mark X. -/
theorem makeClassicalMove_spec_witness :
    ∃ b', makeClassicalMove boardEmpty3 ((0 : Nat) : Int) ((0 : Nat) : Int)
        Mark.X = some (b', true) ∧
      cellNat b'.cells 0 0 = some (Cell.classical Mark.X) ∧
      (∀ r' c', (r', c') ≠ (0, 0) →
        cellNat b'.cells r' c' = cellNat boardEmpty3.cells r' c') ∧
      b'.entanglementCount = boardEmpty3.entanglementCount ∧
      b'.size = boardEmpty3.size ∧
      b'.winningLines = boardEmpty3.winningLines ∧
      GridWF boardEmpty3.size b'.cells :=
  (makeClassicalMove_spec boardEmpty3 (by decide) 0 0 (by decide) (by decide)
    Mark.X).1 (by decide)

theorem pyIdx_eq_some_lt {len : Nat} {i : Int} {n : Nat}
    (h : pyIdx len i = some n) : n < len := by
  simp only [pyIdx] at h
  by_cases hc : 0 ≤ (if i < 0 then i + (len : Int) else i) ∧
      (if i < 0 then i + (len : Int) else i) < (len : Int)
  · rw [if_pos hc] at h
    have hn := Option.some.inj h
    omega
  · rw [if_neg hc] at h
    exact Option.noConfusion h

theorem getCellGrid_none_of_out {b : Board} (hwf : GridWF b.size b.cells)
    {row col : Int}
    (hout : ¬ InWindow b.size row ∨ ¬ InWindow b.size col) :
    getCellGrid b.cells row col = none := by
  obtain ⟨hlen, hrows⟩ := hwf
  rcases hout with hout | hout
  · have : pyIdx b.cells.length row = none := by
      rw [pyIdx_eq_none_iff, hlen]
      exact hout
    unfold getCellGrid pyGet
    rw [this, Option.none_bind, Option.none_bind]
  · unfold getCellGrid pyGet
    cases hidx : pyIdx b.cells.length row with
    | none => rw [Option.none_bind, Option.none_bind]
    | some rn =>
      have hrn : rn < b.cells.length := pyIdx_eq_some_lt hidx
      rw [Option.some_bind, List.getElem?_eq_getElem hrn, Option.some_bind]
      have hmem : b.cells[rn] ∈ b.cells := List.getElem_mem hrn
      have : pyIdx (b.cells[rn].length) col = none := by
        rw [pyIdx_eq_none_iff, hrows _ hmem]
        exact hout
      rw [this, Option.none_bind]

/-- C9 counterexample: on `Board(3)` the request
`make_classical_move(3, 0, 'X')` names the out-of-range row 3. The claim says
the operation returns a boolean failure to the caller rather than raising,
with the board unchanged; the code instead raises an uncaught `IndexError`
(modelled as `none`, reaching neither `return True` nor `return False`). -/
theorem outOfRange_raises_counterexample :
    (Board.init 3).map
      (fun b => makeClassicalMove b ((3 : Nat) : Int) ((0 : Nat) : Int)
        Mark.X) = some none := by
  decide

theorem pyIdx_neg_wrap (len n : Nat) (hn : n < len) :
    pyIdx len ((n : Int) - (len : Int)) = some n := by
  simp only [pyIdx]
  have h1 : (n : Int) - (len : Int) < 0 := by omega
  rw [if_pos h1]
  have h2 : (0 : Int) ≤ (n : Int) - (len : Int) + (len : Int) ∧
      (n : Int) - (len : Int) + (len : Int) < (len : Int) := ⟨by omega, by omega⟩
  rw [if_pos h2]
  congr 1
  omega

theorem getCellGrid_neg_wrap {b : Board} (hwf : GridWF b.size b.cells)
    {r c : Nat} (hr : r < b.size) (hc : c < b.size) :
    getCellGrid b.cells ((r : Int) - (b.size : Int))
      ((c : Int) - (b.size : Int)) = cellNat b.cells r c := by
  obtain ⟨hlen, hrows⟩ := hwf
  unfold getCellGrid cellNat pyGet
  rw [hlen, pyIdx_neg_wrap b.size r hr, Option.some_bind]
  cases hrow : b.cells[r]? with
  | none =>
    rw [Option.none_bind]
    rfl
  | some row =>
    rw [Option.some_bind, hrows row (List.getElem?_mem hrow),
      pyIdx_neg_wrap b.size c hc, Option.some_bind]
    rfl

theorem setCellGrid_neg_wrap {b : Board} (hwf : GridWF b.size b.cells)
    {r c : Nat} (hr : r < b.size) (hc : c < b.size)
    {row : List Cell} (hrow : b.cells[r]? = some row) (v : Cell) :
    setCellGrid b.cells ((r : Int) - (b.size : Int))
      ((c : Int) - (b.size : Int)) v =
      some (b.cells.set r (row.set c v)) := by
  obtain ⟨hlen, hrows⟩ := hwf
  unfold setCellGrid
  rw [hlen, pyIdx_neg_wrap b.size r hr, Option.some_bind, hrow,
    Option.some_bind, hrows row (List.getElem?_mem hrow),
    pyIdx_neg_wrap b.size c hc]
  rfl

/-- C9 amended: a move request naming a cell outside Python's accepted index
window `[-size, size)` is not recovered locally: the read raises an uncaught
`IndexError` (`none`), for classical moves, for swap moves (on the cell read
first), and for entangling moves of legal arity (on the first position
scanned). Indices inside `[-size, 0)` are not errors at all: Python wraps
them to in-range cells (see `pyIdx`), so such a request silently succeeds and
mutates the wrapped cell — the second conjunct: a classical move at
`(r - size, c - size)`, coordinates outside the grid, returns `True` and
writes `Classical(mark)` into cell `(r, c)`. -/
theorem outOfRange_behavior (b : Board) (hwf : GridWF b.size b.cells)
    (row col row2 col2 : Int) (mark : Mark) (rest : List (Int × Int))
    (hout : ¬ InWindow b.size row ∨ ¬ InWindow b.size col)
    (hrest : rest.length = 1 ∨ rest.length = 2) :
    (makeClassicalMove b row col mark = none ∧
     makeSwapMove b row col row2 col2 = none ∧
     makeEntangledMove b ((row, col) :: rest) mark = none) ∧
    (∀ r c : Nat, r < b.size → c < b.size →
      cellNat b.cells r c = some Cell.empty →
      ∃ b', makeClassicalMove b ((r : Int) - (b.size : Int))
          ((c : Int) - (b.size : Int)) mark = some (b', true) ∧
        cellNat b'.cells r c = some (Cell.classical mark)) := by
  have hget : getCellGrid b.cells row col = none :=
    getCellGrid_none_of_out hwf hout
  refine ⟨⟨?_, ?_, ?_⟩, ?_⟩
  · unfold makeClassicalMove
    rw [hget, Option.none_bind]
  · unfold makeSwapMove
    rw [hget, Option.none_bind]
  · unfold makeEntangledMove
    have hlen : ¬ ¬ (((row, col) :: rest).length = 2 ∨
        ((row, col) :: rest).length = 3) := by
      simp only [List.length_cons]
      omega
    rw [if_neg hlen]
    unfold anyOccupied
    rw [hget, Option.none_bind, Option.none_bind]
  · intro r c hr hc hemp
    obtain ⟨rw0, hrow, hcv⟩ := cellNat_eq_some_iff.mp hemp
    have hclen : c < rw0.length := by
      rcases List.getElem?_eq_some_iff.mp hcv with ⟨h, _⟩
      exact h
    unfold makeClassicalMove
    rw [getCellGrid_neg_wrap hwf hr hc, hemp, Option.some_bind, if_pos rfl,
      setCellGrid_neg_wrap hwf hr hc hrow (Cell.classical mark)]
    refine ⟨_, rfl, ?_⟩
    exact cellNat_set_self hwf hr hc hrow (Cell.classical mark)

/-- Witness for `outOfRange_behavior`: `Board(3)`, row 3, column 0 for the
raising conjunct; the wrap conjunct instantiated on the same board (for
example, the request at `(-3, -3)` writes cell `(0, 0)`). -/
theorem outOfRange_behavior_witness :
    (makeClassicalMove boardEmpty3 3 0 Mark.X = none ∧
     makeSwapMove boardEmpty3 3 0 0 0 = none ∧
     makeEntangledMove boardEmpty3 [(3, 0), (0, 1)] Mark.X = none) ∧
    (∀ r c : Nat, r < boardEmpty3.size → c < boardEmpty3.size →
      cellNat boardEmpty3.cells r c = some Cell.empty →
      ∃ b', makeClassicalMove boardEmpty3
          ((r : Int) - (boardEmpty3.size : Int))
          ((c : Int) - (boardEmpty3.size : Int)) Mark.X = some (b', true) ∧
        cellNat b'.cells r c = some (Cell.classical Mark.X)) :=
  outOfRange_behavior boardEmpty3 (by decide) 3 0 0 0 Mark.X [(0, 1)]
    (Or.inl (by decide)) (Or.inl (by decide))

theorem intPos_cons (p : Nat × Nat) (ps : List (Nat × Nat)) :
    intPos (p :: ps) = ((p.1 : Int), (p.2 : Int)) :: intPos ps := rfl

theorem anyOccupied_eq_false {cells : List (List Cell)} :
    ∀ ps : List (Nat × Nat),
      (∀ p ∈ ps, cellNat cells p.1 p.2 = some Cell.empty) →
      anyOccupied cells (intPos ps) = some false := by
  intro ps
  induction ps with
  | nil => intro _; rfl
  | cons p rest ih =>
    intro hall
    rw [intPos_cons]
    unfold anyOccupied
    rw [getCellGrid_natCast, hall p (by simp), Option.some_bind, if_pos rfl]
    exact ih (fun q hq => hall q (by simp [hq]))

theorem anyOccupied_eq_true {size : Nat} {cells : List (List Cell)}
    (hwf : GridWF size cells) :
    ∀ ps : List (Nat × Nat),
      (∀ p ∈ ps, p.1 < size ∧ p.2 < size) →
      (∃ p ∈ ps, cellNat cells p.1 p.2 ≠ some Cell.empty) →
      anyOccupied cells (intPos ps) = some true := by
  intro ps
  induction ps with
  | nil =>
    intro _ hex
    obtain ⟨p, hmem, _⟩ := hex
    exact absurd hmem (List.not_mem_nil p)
  | cons p rest ih =>
    intro hin hex
    rw [intPos_cons]
    unfold anyOccupied
    obtain ⟨cell, hcell⟩ :=
      cellNat_isSome_of_wf hwf (hin p (by simp)).1 (hin p (by simp)).2
    rw [getCellGrid_natCast, hcell, Option.some_bind]
    by_cases hemp : cell = Cell.empty
    · rw [if_pos hemp]
      refine ih (fun q hq => hin q (by simp [hq])) ?_
      obtain ⟨q, hqmem, hq⟩ := hex
      rcases List.mem_cons.mp hqmem with h | h
      · exfalso
        apply hq
        rw [h, hcell, hemp]
      · exact ⟨q, h, hq⟩
    · rw [if_neg hemp]

theorem setAllPending_spec (mark : Mark) (size : Nat) :
    ∀ (ps : List (Nat × Nat)) (cells : List (List Cell)),
      GridWF size cells →
      (∀ p ∈ ps, p.1 < size ∧ p.2 < size) →
      ∃ cells', setAllPending mark cells (intPos ps) = some cells' ∧
        GridWF size cells' ∧
        ∀ r c, r < size → c < size →
          cellNat cells' r c =
            if (r, c) ∈ ps then some (Cell.pending mark)
            else cellNat cells r c := by
  intro ps
  induction ps with
  | nil =>
    intro cells hwf _
    refine ⟨cells, rfl, hwf, ?_⟩
    intro r c _ _
    rw [if_neg (List.not_mem_nil (r, c))]
  | cons p rest ih =>
    obtain ⟨p1, p2⟩ := p
    intro cells hwf hin
    have hp1 : p1 < size := (hin (p1, p2) (by simp)).1
    have hp2 : p2 < size := (hin (p1, p2) (by simp)).2
    obtain ⟨cell, hcell⟩ := cellNat_isSome_of_wf hwf hp1 hp2
    obtain ⟨row, hrow, hcv⟩ := cellNat_eq_some_iff.mp hcell
    have hclen : p2 < row.length := by
      rcases List.getElem?_eq_some_iff.mp hcv with ⟨h, _⟩
      exact h
    have hstep : setAllPending mark cells (intPos ((p1, p2) :: rest)) =
        setAllPending mark (cells.set p1 (row.set p2 (Cell.pending mark)))
          (intPos rest) := by
      rw [intPos_cons]
      show (setCellGrid cells (p1 : Int) (p2 : Int)
          (Cell.pending mark)).bind _ = _
      rw [setCellGrid_natCast cells p1 p2 row hrow hclen, Option.some_bind]
    have hwf1 : GridWF size (cells.set p1 (row.set p2 (Cell.pending mark))) :=
      gridWF_set hwf hrow p2 (Cell.pending mark)
    obtain ⟨cells', hrun, hwf', hpost⟩ :=
      ih (cells.set p1 (row.set p2 (Cell.pending mark))) hwf1
        (fun q hq => hin q (by simp [hq]))
    refine ⟨cells', by rw [hstep]; exact hrun, hwf', ?_⟩
    intro r c hr hc
    rw [hpost r c hr hc]
    by_cases hmem : (r, c) ∈ rest
    · rw [if_pos hmem, if_pos (by simp [hmem])]
    · rw [if_neg hmem]
      by_cases hhd : r = p1 ∧ c = p2
      · obtain ⟨hhr, hhc⟩ := hhd
        subst hhr; subst hhc
        rw [if_pos (by simp)]
        exact cellNat_set_self hwf hp1 hp2 hrow (Cell.pending mark)
      · have hne : ((r, c) : Nat × Nat) ≠ (p1, p2) := by
          intro hcon
          apply hhd
          exact ⟨congrArg Prod.fst hcon, congrArg Prod.snd hcon⟩
        rw [if_neg (by simp [hne, hmem]), cellNat_set_ne hrow _ hne]

theorem intPos_injective :
    Function.Injective (fun p : Nat × Nat => ((p.1 : Int), (p.2 : Int))) := by
  intro a b h
  have h1 : ((a.1 : Int), (a.2 : Int)) = ((b.1 : Int), (b.2 : Int)) := h
  have hfst : (a.1 : Int) = (b.1 : Int) := congrArg Prod.fst h1
  have hsnd : (a.2 : Int) = (b.2 : Int) := congrArg Prod.snd h1
  have : a.1 = b.1 := by exact_mod_cast hfst
  have : a.2 = b.2 := by exact_mod_cast hsnd
  obtain ⟨a1, a2⟩ := a
  obtain ⟨b1, b2⟩ := b
  simp_all

theorem makeEntangledMove_success_core (b : Board)
    (hwf : GridWF b.size b.cells) (ps : List (Nat × Nat)) (mark : Mark)
    (hlen : ps.length = 2 ∨ ps.length = 3)
    (hin : ∀ p ∈ ps, p.1 < b.size ∧ p.2 < b.size)
    (hemp : ∀ p ∈ ps, cellNat b.cells p.1 p.2 = some Cell.empty)
    (hnd : ps.Nodup) :
    ∃ b', makeEntangledMove b (intPos ps) mark = some (b', true) ∧
      b'.entanglementCount = b.entanglementCount + 1 ∧
      b'.size = b.size ∧ b'.winningLines = b.winningLines ∧
      GridWF b.size b'.cells ∧
      ∀ r c, r < b.size → c < b.size →
        cellNat b'.cells r c =
          if (r, c) ∈ ps then some (Cell.pending mark)
          else cellNat b.cells r c := by
  have hmaplen : (intPos ps).length = ps.length := List.length_map _ _
  have hndmap : (intPos ps).Nodup := List.Nodup.map intPos_injective hnd
  obtain ⟨cells', hrun, hwf', hpost⟩ :=
    setAllPending_spec mark b.size ps b.cells hwf hin
  refine ⟨{ b with
      cells := cells'
      circuit := b.circuit ++ entangleGates
        ((intPos ps).map (fun p => p.1 * (b.size : Int) + p.2))
      entanglementCount := b.entanglementCount + 1 }, ?_, rfl, rfl, rfl,
    hwf', ?_⟩
  · unfold makeEntangledMove
    rw [if_neg (by rw [hmaplen]; exact not_not_intro hlen),
      anyOccupied_eq_false ps hemp, Option.some_bind,
      if_neg (by simp), if_neg (not_not_intro hndmap), hrun]
    rfl
  · intro r c hr hc
    exact hpost r c hr hc

/-- C6: a successful entangle of `k ∈ {2,3}` distinct empty in-range
positions marks exactly the named cells `Pending(mark)`, increments the
entanglement counter by exactly one, and leaves every other cell (and the
board size and winning lines) unchanged. -/
theorem entangle_success_spec (b : Board) (hwf : GridWF b.size b.cells)
    (ps : List (Nat × Nat)) (mark : Mark)
    (hlen : ps.length = 2 ∨ ps.length = 3)
    (hin : ∀ p ∈ ps, p.1 < b.size ∧ p.2 < b.size)
    (hemp : ∀ p ∈ ps, cellNat b.cells p.1 p.2 = some Cell.empty)
    (hnd : ps.Nodup) :
    ∃ b', makeEntangledMove b (intPos ps) mark = some (b', true) ∧
      b'.entanglementCount = b.entanglementCount + 1 ∧
      (∀ p ∈ ps, cellNat b'.cells p.1 p.2 = some (Cell.pending mark)) ∧
      (∀ r c, r < b.size → c < b.size → (r, c) ∉ ps →
        cellNat b'.cells r c = cellNat b.cells r c) ∧
      b'.size = b.size ∧ b'.winningLines = b.winningLines := by
  obtain ⟨b', hrun, hcount, hsize, hlines, hwf', hpost⟩ :=
    makeEntangledMove_success_core b hwf ps mark hlen hin hemp hnd
  refine ⟨b', hrun, hcount, ?_, ?_, hsize, hlines⟩
  · intro p hp
    have h1 := (hin p hp).1
    have h2 := (hin p hp).2
    have := hpost p.1 p.2 h1 h2
    rwa [if_pos (by simpa using hp)] at this
  · intro r c hr hc hmem
    have := hpost r c hr hc
    rwa [if_neg hmem] at this

/-- Witness for `entangle_success_spec`: `Board(3)`, positions
`[(0,0), (0,1)]`, mark X. -/
theorem entangle_success_spec_witness :
    ∃ b', makeEntangledMove boardEmpty3 (intPos [(0, 0), (0, 1)]) Mark.X =
        some (b', true) ∧
      b'.entanglementCount = boardEmpty3.entanglementCount + 1 ∧
      (∀ p ∈ [((0 : Nat), (0 : Nat)), (0, 1)],
        cellNat b'.cells p.1 p.2 = some (Cell.pending Mark.X)) ∧
      (∀ r c, r < boardEmpty3.size → c < boardEmpty3.size →
        (r, c) ∉ [((0 : Nat), (0 : Nat)), (0, 1)] →
        cellNat b'.cells r c = cellNat boardEmpty3.cells r c) ∧
      b'.size = boardEmpty3.size ∧
      b'.winningLines = boardEmpty3.winningLines :=
  entangle_success_spec boardEmpty3 (by decide) [(0, 0), (0, 1)] Mark.X
    (by decide) (by decide) (by decide) (by decide)

/-- C7: `make_entangled_move` fails — returning `False` with the very same
object state, cells, recorded circuit (the entanglement ledger stand-in) and
counter untouched — whenever the arity is not 2 or 3, or some named cell is
non-empty, or the positions contain a duplicate; on in-range positions it
succeeds in every other case. -/
theorem entangle_legality (b : Board) (hwf : GridWF b.size b.cells)
    (ps : List (Nat × Nat)) (mark : Mark)
    (hin : ∀ p ∈ ps, p.1 < b.size ∧ p.2 < b.size) :
    ((¬ (ps.length = 2 ∨ ps.length = 3)) ∨
      (∃ p ∈ ps, cellNat b.cells p.1 p.2 ≠ some Cell.empty) ∨
      ¬ ps.Nodup →
      makeEntangledMove b (intPos ps) mark = some (b, false)) ∧
    ((ps.length = 2 ∨ ps.length = 3) →
      (∀ p ∈ ps, cellNat b.cells p.1 p.2 = some Cell.empty) → ps.Nodup →
      ∃ b', makeEntangledMove b (intPos ps) mark = some (b', true)) := by
  have hmaplen : (intPos ps).length = ps.length := List.length_map _ _
  constructor
  · intro hbad
    by_cases hlen : ps.length = 2 ∨ ps.length = 3
    · by_cases hocc : ∃ p ∈ ps, cellNat b.cells p.1 p.2 ≠ some Cell.empty
      · unfold makeEntangledMove
        rw [if_neg (by rw [hmaplen]; exact not_not_intro hlen),
          anyOccupied_eq_true hwf ps hin hocc, Option.some_bind, if_pos rfl]
      · have hemp : ∀ p ∈ ps, cellNat b.cells p.1 p.2 = some Cell.empty := by
          intro p hp
          by_contra hne
          exact hocc ⟨p, hp, hne⟩
        have hdup : ¬ ps.Nodup := by
          rcases hbad with h | h | h
          · exact absurd hlen h
          · exact absurd h hocc
          · exact h
        have hdupmap : ¬ (intPos ps).Nodup := by
          intro h
          exact hdup (List.Nodup.of_map _ h)
        unfold makeEntangledMove
        rw [if_neg (by rw [hmaplen]; exact not_not_intro hlen),
          anyOccupied_eq_false ps hemp, Option.some_bind, if_neg (by simp),
          if_pos hdupmap]
    · unfold makeEntangledMove
      rw [if_pos (by rw [hmaplen]; exact hlen)]
  · intro hlen hemp hnd
    obtain ⟨b', hrun, _⟩ :=
      makeEntangledMove_success_core b hwf ps mark hlen hin hemp hnd
    exact ⟨b', hrun⟩

/-- Witness for `entangle_legality`: `Board(3)` with the duplicate position
list `[(0,0), (0,0)]` — the move fails and returns the unchanged board. -/
theorem entangle_legality_witness :
    makeEntangledMove boardEmpty3 (intPos [(0, 0), (0, 0)]) Mark.X =
      some (boardEmpty3, false) :=
  (entangle_legality boardEmpty3 (by decide) [(0, 0), (0, 0)] Mark.X
    (by decide)).1 (Or.inr (Or.inr (by decide)))

theorem allPendingLine_eq_true_iff (b : Board) (line : List Int) :
    allPendingLine b line = some true ↔
      ∀ i ∈ line, ∃ cell, cellAtIdx b i = some cell ∧
        cell.isPending = true := by
  induction line with
  | nil => simp [allPendingLine]
  | cons i rest ih =>
    unfold allPendingLine
    cases hc : cellAtIdx b i with
    | none =>
      rw [Option.none_bind]
      constructor
      · intro h; exact Option.noConfusion h
      · intro hall
        obtain ⟨cell, hcell, _⟩ := hall i (by simp)
        rw [hc] at hcell
        exact Option.noConfusion hcell
    | some cell =>
      rw [Option.some_bind]
      by_cases hp : cell.isPending = true
      · rw [if_pos hp, ih]
        constructor
        · intro hall
          intro j hj
          rcases List.mem_cons.mp hj with h | h
          · rw [h]; exact ⟨cell, hc, hp⟩
          · exact hall j h
        · intro hall j hj
          exact hall j (by simp [hj])
      · rw [if_neg hp]
        constructor
        · intro h
          exact absurd (Option.some.inj h) (by simp)
        · intro hall
          obtain ⟨cell', hcell', hp'⟩ := hall i (by simp)
          rw [hc] at hcell'
          rw [Option.some.inj hcell'] at hp
          exact absurd hp' hp

theorem allPendingLine_isSome (b : Board) (line : List Int)
    (hread : ∀ i ∈ line, (cellAtIdx b i).isSome) :
    ∃ v, allPendingLine b line = some v := by
  induction line with
  | nil => exact ⟨true, rfl⟩
  | cons i rest ih =>
    unfold allPendingLine
    obtain ⟨cell, hc⟩ := Option.isSome_iff_exists.mp (hread i (by simp))
    rw [hc, Option.some_bind]
    by_cases hp : cell.isPending = true
    · rw [if_pos hp]
      exact ih (fun j hj => hread j (by simp [hj]))
    · rw [if_neg hp]
      exact ⟨false, rfl⟩

theorem findPendingLine_eq_true (b : Board) (lines : List (List Int))
    (hread : ∀ line ∈ lines, ∀ i ∈ line, (cellAtIdx b i).isSome)
    (hex : ∃ line ∈ lines, allPendingLine b line = some true) :
    findPendingLine b lines = some true := by
  induction lines with
  | nil =>
    obtain ⟨line, hmem, _⟩ := hex
    exact absurd hmem (List.not_mem_nil line)
  | cons line rest ih =>
    unfold findPendingLine
    obtain ⟨v, hv⟩ := allPendingLine_isSome b line
      (fun i hi => hread line (by simp) i hi)
    rw [hv, Option.some_bind]
    cases v with
    | true => rw [if_pos rfl]
    | false =>
      rw [if_neg (by simp)]
      refine ih (fun l hl i hi => hread l (by simp [hl]) i hi) ?_
      obtain ⟨l, hmem, hl⟩ := hex
      rcases List.mem_cons.mp hmem with h | h
      · rw [h] at hl
        rw [hl] at hv
        exact absurd (Option.some.inj hv) (by simp)
      · exact ⟨l, h, hl⟩

theorem findPendingLine_true_elim (b : Board) (lines : List (List Int))
    (h : findPendingLine b lines = some true) :
    ∃ line ∈ lines, allPendingLine b line = some true := by
  induction lines with
  | nil => exact absurd (Option.some.inj h) (by simp)
  | cons line rest ih =>
    unfold findPendingLine at h
    cases hv : allPendingLine b line with
    | none =>
      rw [hv, Option.none_bind] at h
      exact Option.noConfusion h
    | some v =>
      rw [hv, Option.some_bind] at h
      cases v with
      | true => exact ⟨line, by simp, hv⟩
      | false =>
        rw [if_neg (by simp)] at h
        obtain ⟨l, hmem, hl⟩ := ih h
        exact ⟨l, by simp [hmem], hl⟩

/-- C2: `can_be_collapsed` answers `True` exactly when the entanglement
counter has reached 3 and some winning line consists entirely of pending
cells, whichever player's marks tag them. The method reads the board and
returns a boolean; in this embedding it is a pure function of the board, so
it mutates nothing. -/
theorem can_be_collapsed_iff (b : Board) (hread : LinesReadable b) :
    canBeCollapsed b = some true ↔
      3 ≤ b.entanglementCount ∧
      ∃ line ∈ b.winningLines, ∀ i ∈ line,
        ∃ cell, cellAtIdx b i = some cell ∧ cell.isPending = true := by
  unfold canBeCollapsed
  by_cases hcnt : 3 ≤ b.entanglementCount
  · rw [if_pos hcnt]
    constructor
    · intro h
      obtain ⟨line, hmem, hline⟩ := findPendingLine_true_elim b _ h
      exact ⟨hcnt, line, hmem, (allPendingLine_eq_true_iff b line).mp hline⟩
    · rintro ⟨-, line, hmem, hall⟩
      exact findPendingLine_eq_true b _ hread
        ⟨line, hmem, (allPendingLine_eq_true_iff b line).mpr hall⟩
  · rw [if_neg hcnt]
    constructor
    · intro h
      exact absurd (Option.some.inj h) (by simp)
    · rintro ⟨hc, -⟩
      exact absurd hc hcnt

/-- Witness for `can_be_collapsed_iff`: on `boardPending3` (counter 3, top
row all pending) the trigger fires, so the counter bound holds and a fully
pending winning line exists. -/
theorem can_be_collapsed_iff_witness :
    3 ≤ boardPending3.entanglementCount ∧
    ∃ line ∈ boardPending3.winningLines, ∀ i ∈ line,
      ∃ cell, cellAtIdx boardPending3 i = some cell ∧
        cell.isPending = true :=
  (can_be_collapsed_iff boardPending3 (by decide)).mp (by decide)

theorem lineAllEq_eq_true (b : Board) (fc : Cell) (line : List Int)
    (h : lineAllEq b fc line = some true) :
    ∀ i ∈ line, cellAtIdx b i = some fc := by
  induction line with
  | nil => intro i hi; exact absurd hi (List.not_mem_nil i)
  | cons j rest ih =>
    unfold lineAllEq at h
    cases hc : cellAtIdx b j with
    | none =>
      rw [hc, Option.none_bind] at h
      exact Option.noConfusion h
    | some cell =>
      rw [hc, Option.some_bind] at h
      by_cases heq : cell = fc
      · rw [if_pos heq] at h
        intro i hi
        rcases List.mem_cons.mp hi with h' | h'
        · rw [h', hc, heq]
        · exact ih h i h'
      · rw [if_neg heq] at h
        exact absurd (Option.some.inj h) (by simp)

theorem lineAllEq_isSome (b : Board) (fc : Cell) (line : List Int)
    (hread : ∀ i ∈ line, (cellAtIdx b i).isSome) :
    ∃ v, lineAllEq b fc line = some v := by
  induction line with
  | nil => exact ⟨true, rfl⟩
  | cons j rest ih =>
    unfold lineAllEq
    obtain ⟨cell, hc⟩ := Option.isSome_iff_exists.mp (hread j (by simp))
    rw [hc, Option.some_bind]
    by_cases heq : cell = fc
    · rw [if_pos heq]
      exact ih (fun i hi => hread i (by simp [hi]))
    · rw [if_neg heq]
      exact ⟨false, rfl⟩

theorem pyGet_cons_zero {α : Type} (a : α) (t : List α) :
    pyGet (a :: t) 0 = some a := by
  unfold pyGet pyIdx
  norm_num

theorem scanWin_winner_elim (b : Board) :
    ∀ lines : List (List Int), ∀ fc : Cell,
      scanWin b lines = some (some fc) →
      ∃ line ∈ lines, line ≠ [] ∧ (∀ i ∈ line, cellAtIdx b i = some fc) ∧
        fc ∉ [Cell.empty, Cell.pending Mark.X, Cell.pending Mark.O] := by
  intro lines
  induction lines with
  | nil =>
    intro fc h
    exact absurd (Option.some.inj h) (by simp)
  | cons line rest ih =>
    intro fc h
    unfold scanWin at h
    cases hi0 : pyGet line 0 with
    | none =>
      rw [hi0, Option.none_bind] at h
      exact Option.noConfusion h
    | some i0 =>
      rw [hi0, Option.some_bind] at h
      cases hfc : cellAtIdx b i0 with
      | none =>
        rw [hfc, Option.none_bind] at h
        exact Option.noConfusion h
      | some fc0 =>
        rw [hfc, Option.some_bind] at h
        cases hsame : lineAllEq b fc0 line with
        | none =>
          rw [hsame, Option.none_bind] at h
          exact Option.noConfusion h
        | some same =>
          rw [hsame, Option.some_bind] at h
          by_cases hcond : same = true ∧
              fc0 ∉ [Cell.empty, Cell.pending Mark.X, Cell.pending Mark.O]
          · rw [if_pos hcond] at h
            have hfc0 : fc0 = fc :=
              Option.some.inj (Option.some.inj h)
            obtain ⟨hsame', hnot⟩ := hcond
            have hne : line ≠ [] := by
              intro hnil
              rw [hnil] at hi0
              have hempty : pyGet ([] : List Int) 0 = none := by rfl
              rw [hempty] at hi0
              exact Option.noConfusion hi0
            rw [hsame'] at hsame
            refine ⟨line, by simp, hne, ?_, hfc0 ▸ hnot⟩
            intro i hmem
            rw [← hfc0]
            exact lineAllEq_eq_true b fc0 line hsame i hmem
          · rw [if_neg hcond] at h
            obtain ⟨l, hmem, hl⟩ := ih fc h
            exact ⟨l, by simp [hmem], hl⟩

/-- C4: whenever `check_win` reports a winner, the winning cell value heads a
recorded winning line whose every cell equals it and is neither empty nor
pending — so no line containing a pending cell, even a fully pending line
with matching tags, is ever reported as a win. -/
theorem check_win_winner_spec (b : Board) (fc : Cell)
    (h : checkWin b = some (GameResult.winner fc)) :
    ∃ line ∈ b.winningLines, line ≠ [] ∧
      (∀ i ∈ line, cellAtIdx b i = some fc) ∧
      fc ≠ Cell.empty ∧ fc.isPending = false := by
  unfold checkWin at h
  cases hscan : scanWin b b.winningLines with
  | none =>
    rw [hscan, Option.none_bind] at h
    exact Option.noConfusion h
  | some w =>
    rw [hscan, Option.some_bind] at h
    cases w with
    | some fc0 =>
      have : fc0 = fc := by
        have := Option.some.inj h
        exact GameResult.winner.inj this
      rw [this] at hscan
      obtain ⟨line, hmem, hne, hall, hnot⟩ :=
        scanWin_winner_elim b b.winningLines fc hscan
      refine ⟨line, hmem, hne, hall, ?_, ?_⟩
      · intro hemp; exact hnot (by rw [hemp]; simp)
      · cases fc with
        | empty => rfl
        | classical m => rfl
        | pending m =>
          exfalso
          apply hnot
          cases m with
          | X => simp
          | O => simp
    | none =>
      exfalso
      cases hfill : allFilled b (List.range (b.size ^ 2)) with
      | none =>
        rw [hfill] at h
        exact Option.noConfusion h
      | some filled =>
        rw [hfill] at h
        simp only [Option.map_some'] at h
        have := Option.some.inj h
        by_cases hf : filled = true
        · rw [if_pos hf] at this
          by_cases hcnt : b.entanglementCount = 0
          · rw [if_pos hcnt] at this
            exact GameResult.noConfusion this
          · rw [if_neg hcnt] at this
            exact GameResult.noConfusion this
        · rw [if_neg hf] at this
          exact GameResult.noConfusion this

/-- Witness for `check_win_winner_spec`: `boardWin3`, whose top row is three
classical `X` marks, reports `X` as the winner. -/
theorem check_win_winner_spec_witness :
    ∃ line ∈ boardWin3.winningLines, line ≠ [] ∧
      (∀ i ∈ line, cellAtIdx boardWin3 i = some (Cell.classical Mark.X)) ∧
      Cell.classical Mark.X ≠ Cell.empty ∧
      (Cell.classical Mark.X).isPending = false :=
  check_win_winner_spec boardWin3 (Cell.classical Mark.X) (by decide)

theorem scanWin_eq_none (b : Board) :
    ∀ lines : List (List Int),
      (∀ line ∈ lines, line ≠ []) →
      (∀ line ∈ lines, ∀ i ∈ line, (cellAtIdx b i).isSome) →
      (∀ line ∈ lines, ∀ fc : Cell, (∀ i ∈ line, cellAtIdx b i = some fc) →
        fc ∈ [Cell.empty, Cell.pending Mark.X, Cell.pending Mark.O]) →
      scanWin b lines = some none := by
  intro lines
  induction lines with
  | nil => intro _ _ _; rfl
  | cons line rest ih =>
    intro hne hread hnw
    obtain ⟨i0, t, hline⟩ : ∃ i0 t, line = i0 :: t := by
      cases line with
      | nil => exact absurd rfl (hne [] (by simp))
      | cons a t => exact ⟨a, t, rfl⟩
    unfold scanWin
    rw [hline, pyGet_cons_zero]
    rw [Option.some_bind]
    obtain ⟨fc0, hfc0⟩ := Option.isSome_iff_exists.mp
      (hread line (by simp) i0 (by rw [hline]; simp))
    rw [← hline, hfc0, Option.some_bind]
    obtain ⟨same, hsame⟩ := lineAllEq_isSome b fc0 line
      (fun i hi => hread line (by simp) i hi)
    rw [hsame, Option.some_bind]
    have hrec : scanWin b rest = some none :=
      ih (fun l hl => hne l (by simp [hl]))
        (fun l hl i hi => hread l (by simp [hl]) i hi)
        (fun l hl fc hfc => hnw l (by simp [hl]) fc hfc)
    by_cases hcond : same = true ∧
        fc0 ∉ [Cell.empty, Cell.pending Mark.X, Cell.pending Mark.O]
    · exfalso
      obtain ⟨hsame', hnot⟩ := hcond
      rw [hsame'] at hsame
      exact hnot (hnw line (by simp) fc0 (lineAllEq_eq_true b fc0 line hsame))
    · rw [if_neg hcond]
      exact hrec

theorem allFilled_eq_true (b : Board) :
    ∀ idxs : List Nat,
      (∀ i ∈ idxs, ∃ cell, cellAtIdx b (i : Int) = some cell ∧
        cell ≠ Cell.empty) →
      allFilled b idxs = some true := by
  intro idxs
  induction idxs with
  | nil => intro _; rfl
  | cons i rest ih =>
    intro hfull
    obtain ⟨cell, hc, hne⟩ := hfull i (by simp)
    unfold allFilled
    rw [hc, Option.some_bind, if_neg hne]
    exact ih (fun j hj => hfull j (by simp [hj]))

/-- C5: on a board with no winning line (in `check_win`'s sense) and every
cell non-empty, `check_win` returns `'Draw'` when the entanglement counter
is 0 and the counter's value when it is positive — a `GameResult` value
distinct from both `draw` and the no-result outcome. -/
theorem check_win_full_board (b : Board)
    (hne : ∀ line ∈ b.winningLines, line ≠ [])
    (hread : LinesReadable b)
    (hnw : ∀ line ∈ b.winningLines, ∀ fc : Cell,
      (∀ i ∈ line, cellAtIdx b i = some fc) →
      fc ∈ [Cell.empty, Cell.pending Mark.X, Cell.pending Mark.O])
    (hfull : ∀ i ∈ List.range (b.size ^ 2),
      ∃ cell, cellAtIdx b (i : Int) = some cell ∧ cell ≠ Cell.empty) :
    checkWin b = (if b.entanglementCount = 0 then some GameResult.draw
      else some (GameResult.collapseNeeded b.entanglementCount)) ∧
    (0 < b.entanglementCount →
      GameResult.collapseNeeded b.entanglementCount ≠ GameResult.draw ∧
      GameResult.collapseNeeded b.entanglementCount ≠
        GameResult.noResult) := by
  constructor
  · unfold checkWin
    rw [scanWin_eq_none b b.winningLines hne hread hnw, Option.some_bind,
      allFilled_eq_true b _ hfull]
    by_cases hcnt : b.entanglementCount = 0
    · rw [if_pos hcnt, if_pos hcnt]
      rfl
    · rw [if_neg hcnt, if_neg hcnt]
      rfl
  · intro _
    exact ⟨fun h => GameResult.noConfusion h, fun h => GameResult.noConfusion h⟩

/-- Witness for `check_win_full_board`: `boardFullPending3` is full with two
pending cells and counter 2, so `check_win` returns the counter value 2. -/
theorem check_win_full_board_witness :
    checkWin boardFullPending3 =
      (if boardFullPending3.entanglementCount = 0 then some GameResult.draw
        else some (GameResult.collapseNeeded
          boardFullPending3.entanglementCount)) ∧
    (0 < boardFullPending3.entanglementCount →
      GameResult.collapseNeeded boardFullPending3.entanglementCount ≠
        GameResult.draw ∧
      GameResult.collapseNeeded boardFullPending3.entanglementCount ≠
        GameResult.noResult) :=
  check_win_full_board boardFullPending3 (by decide) (by decide) (by decide)
    (by decide)

theorem pyMaxGo_spec {α : Type} :
    ∀ (l : List (α × Nat)) (k : α) (v : Nat),
      ∃ w, (pyMaxGo k v l, w) ∈ (k, v) :: l ∧ v ≤ w ∧
        ∀ p ∈ (k, v) :: l, p.2 ≤ w := by
  intro l
  induction l with
  | nil =>
    intro k v
    exact ⟨v, by simp [pyMaxGo], le_refl v, by simp⟩
  | cons q rest ih =>
    obtain ⟨k', v'⟩ := q
    intro k v
    unfold pyMaxGo
    by_cases h : v < v'
    · rw [if_pos h]
      obtain ⟨w, hmem, hle, hall⟩ := ih k' v'
      refine ⟨w, ?_, le_trans (le_of_lt h) hle, ?_⟩
      · rcases List.mem_cons.mp hmem with h' | h'
        · rw [h']; simp
        · simp [h']
      · intro p hp
        rcases List.mem_cons.mp hp with h' | h'
        · rw [h']
          exact le_trans (le_of_lt h) hle
        · exact hall p h'
    · rw [if_neg h]
      obtain ⟨w, hmem, hle, hall⟩ := ih k v
      refine ⟨w, ?_, hle, ?_⟩
      · rcases List.mem_cons.mp hmem with h' | h'
        · rw [h']; simp
        · simp [h']
      · intro p hp
        rcases List.mem_cons.mp hp with h' | h'
        · rw [h']
          exact hall (k, v) (by simp)
        · rcases List.mem_cons.mp h' with h'' | h''
          · rw [h'']
            exact le_trans (Nat.le_of_not_lt h) hle
          · exact hall p (by simp [h''])

theorem pyMaxByVal_spec {α : Type} (l : List (α × Nat)) (h : l ≠ []) :
    ∃ best w, pyMaxByVal l = some best ∧ (best, w) ∈ l ∧
      ∀ p ∈ l, p.2 ≤ w := by
  cases l with
  | nil => exact absurd rfl h
  | cons q rest =>
    obtain ⟨k, v⟩ := q
    obtain ⟨w, hmem, _, hall⟩ := pyMaxGo_spec rest k v
    exact ⟨pyMaxGo k v rest, w, rfl, hmem, hall⟩

theorem Int_fdiv_natCast (m n : Nat) :
    ((m : Int)).fdiv ((n : Int)) = ((m / n : Nat) : Int) := by
  rw [Int.fdiv_eq_ediv _ (Int.ofNat_nonneg n)]
  omega

theorem Int_fmod_natCast (m n : Nat) :
    ((m : Int)).fmod ((n : Int)) = ((m % n : Nat) : Int) := by
  rw [Int.fmod_eq_emod _ (Int.ofNat_nonneg n)]
  omega

theorem flatten_div {size c : Nat} (r : Nat) (hc : c < size) :
    (r * size + c) / size = r := by
  have hpos : 0 < size := Nat.lt_of_le_of_lt (Nat.zero_le c) hc
  rw [Nat.add_comm, Nat.add_mul_div_right _ _ hpos, Nat.div_eq_of_lt hc]
  omega

theorem flatten_mod {size c : Nat} (r : Nat) (hc : c < size) :
    (r * size + c) % size = c := by
  rw [Nat.add_comm, Nat.add_mul_mod_self_right]
  exact Nat.mod_eq_of_lt hc

theorem collapseLoop_spec (size : Nat) (maxState : List Bool) :
    ∀ (idxs : List Nat) (cells : List (List Cell)),
      GridWF size cells →
      (∀ i ∈ idxs, i < size * size) →
      (∀ i ∈ idxs, i < maxState.length) →
      idxs.Nodup →
      ∃ cells', collapseLoop size maxState cells idxs = some cells' ∧
        GridWF size cells' ∧
        ∀ r c, r < size → c < size →
          cellNat cells' r c =
            if r * size + c ∈ idxs ∧
                (∃ cell, cellNat cells r c = some cell ∧
                  cell.isPending = true) then
              some (if maxState.getD (r * size + c) false
                then Cell.classical Mark.X else Cell.classical Mark.O)
            else cellNat cells r c := by
  intro idxs
  induction idxs with
  | nil =>
    intro cells hwf _ _ _
    refine ⟨cells, rfl, hwf, ?_⟩
    intro r c _ _
    rw [if_neg]
    rintro ⟨hmem, -⟩
    exact List.not_mem_nil _ hmem
  | cons i rest ih =>
    intro cells hwf hlt hms hnd
    have hi : i < size * size := hlt i (by simp)
    have hpos : 0 < size := by
      rcases Nat.eq_zero_or_pos size with h | h
      · rw [h] at hi; omega
      · exact h
    have hr0lt : i / size < size := (Nat.div_lt_iff_lt_mul hpos).mpr hi
    have hc0lt : i % size < size := Nat.mod_lt _ hpos
    have hdecomp : i / size * size + i % size = i := by
      rw [Nat.mul_comm]
      exact Nat.div_add_mod i size
    have hinotrest : i ∉ rest := (List.nodup_cons.mp hnd).1
    have hndrest : rest.Nodup := (List.nodup_cons.mp hnd).2
    obtain ⟨cell, hcell⟩ := cellNat_isSome_of_wf hwf hr0lt hc0lt
    have hread : getCellGrid cells ((i : Int).fdiv ((size : Nat) : Int))
        ((i : Int).fmod ((size : Nat) : Int)) = some cell := by
      rw [Int_fdiv_natCast, Int_fmod_natCast, getCellGrid_natCast]
      exact hcell
    unfold collapseLoop
    rw [hread, Option.some_bind]
    by_cases hp : cell.isPending = true
    · rw [if_pos hp]
      have hilen : i < maxState.length := hms i (by simp)
      have hbit : pyGet maxState (i : Int) =
          some (maxState.getD i false) := by
        rw [pyGet_natCast, List.getElem?_eq_getElem hilen,
          List.getD_eq_getElem?_getD, List.getElem?_eq_getElem hilen]
        rfl
      rw [hbit, Option.some_bind]
      obtain ⟨row, hrow, hcv⟩ := cellNat_eq_some_iff.mp hcell
      have hclen : i % size < row.length := by
        rcases List.getElem?_eq_some_iff.mp hcv with ⟨h, _⟩
        exact h
      have hset : setCellGrid cells ((i : Int).fdiv ((size : Nat) : Int))
          ((i : Int).fmod ((size : Nat) : Int))
          (if maxState.getD i false then Cell.classical Mark.X
            else Cell.classical Mark.O) =
          some (cells.set (i / size) (row.set (i % size)
            (if maxState.getD i false then Cell.classical Mark.X
              else Cell.classical Mark.O))) := by
        rw [Int_fdiv_natCast, Int_fmod_natCast]
        exact setCellGrid_natCast cells (i / size) (i % size) row hrow hclen _
      rw [hset, Option.some_bind]
      have hwf1 := gridWF_set hwf hrow (i % size)
        (if maxState.getD i false then Cell.classical Mark.X
          else Cell.classical Mark.O)
      obtain ⟨cells', hrun, hwf', hpost⟩ := ih _ hwf1
        (fun j hj => hlt j (by simp [hj]))
        (fun j hj => hms j (by simp [hj])) hndrest
      refine ⟨cells', hrun, hwf', ?_⟩
      intro r c hr hc
      rw [hpost r c hr hc]
      by_cases hhd : r = i / size ∧ c = i % size
      · obtain ⟨hhr, hhc⟩ := hhd
        rw [hhr, hhc, hdecomp, cellNat_set_self hwf hr0lt hc0lt hrow]
        simp [hinotrest, hcell, hp]
      · have hnepair : ((r, c) : Nat × Nat) ≠ (i / size, i % size) := by
          intro hcon
          exact hhd ⟨congrArg Prod.fst hcon, congrArg Prod.snd hcon⟩
        have hji : r * size + c ≠ i := by
          intro hcon
          apply hhd
          constructor
          · rw [← hcon, flatten_div r hc]
          · rw [← hcon, flatten_mod r hc]
        rw [cellNat_set_ne hrow _ hnepair]
        refine if_congr ?_ rfl rfl
        simp [List.mem_cons, hji]
    · rw [if_neg hp]
      obtain ⟨cells', hrun, hwf', hpost⟩ := ih cells hwf
        (fun j hj => hlt j (by simp [hj]))
        (fun j hj => hms j (by simp [hj])) hndrest
      refine ⟨cells', hrun, hwf', ?_⟩
      intro r c hr hc
      rw [hpost r c hr hc]
      by_cases hhd : r = i / size ∧ c = i % size
      · obtain ⟨hhr, hhc⟩ := hhd
        rw [hhr, hhc, hdecomp]
        simp [hinotrest, hcell, hp]
      · have hji : r * size + c ≠ i := by
          intro hcon
          apply hhd
          constructor
          · rw [← hcon, flatten_div r hc]
          · rw [← hcon, flatten_mod r hc]
        refine if_congr ?_ rfl rfl
        simp [List.mem_cons, hji]

theorem collapseBoard_core (b : Board) (counts : List (List Bool × Nat))
    (hwf : GridWF b.size b.cells) (hne : counts ≠ [])
    (hkeys : ∀ p ∈ counts, p.1.length = b.size ^ 2) :
    ∃ best w b', pyMaxByVal counts = some best ∧ (best, w) ∈ counts ∧
      (∀ p ∈ counts, p.2 ≤ w) ∧
      collapseBoard b counts = some (b', counts) ∧
      b'.entanglementCount = 0 ∧ b'.size = b.size ∧
      b'.winningLines = b.winningLines ∧ GridWF b.size b'.cells ∧
      ∀ r c, r < b.size → c < b.size →
        cellNat b'.cells r c =
          if ∃ cell, cellNat b.cells r c = some cell ∧
              cell.isPending = true then
            some (if best.reverse.getD (r * b.size + c) false
              then Cell.classical Mark.X else Cell.classical Mark.O)
          else cellNat b.cells r c := by
  obtain ⟨best, w, hmax, hmem, hall⟩ := pyMaxByVal_spec counts hne
  have hbl : best.length = b.size ^ 2 := hkeys (best, w) hmem
  have hrl : best.reverse.length = b.size ^ 2 := by
    rw [List.length_reverse, hbl]
  obtain ⟨cells', hloop, hwf', hpost⟩ :=
    collapseLoop_spec b.size best.reverse (List.range (b.size ^ 2)) b.cells
      hwf
      (fun i hi => by
        have h := List.mem_range.mp hi
        rw [pow_two] at h
        exact h)
      (fun i hi => by
        rw [hrl]
        exact List.mem_range.mp hi)
      (List.nodup_range _)
  refine ⟨best, w,
    { b with
        cells := cells'
        circuit := b.circuit ++ [Gate.barrier, Gate.measure]
        entanglementCount := 0 },
    hmax, hmem, hall, ?_, rfl, rfl, rfl, hwf', ?_⟩
  · unfold collapseBoard
    rw [hmax, Option.some_bind]
    show (collapseLoop b.size best.reverse b.cells
      (List.range (b.size ^ 2))).map _ = _
    rw [hloop]
    rfl
  · intro r c hr hc
    rw [hpost r c hr hc]
    have hmem' : r * b.size + c ∈ List.range (b.size ^ 2) := by
      rw [List.mem_range, pow_two]
      have h1 : r * b.size + c < (r + 1) * b.size := by
        have he : (r + 1) * b.size = r * b.size + b.size := by ring
        omega
      have h2 : (r + 1) * b.size ≤ b.size * b.size :=
        Nat.mul_le_mul_right _ hr
      exact Nat.lt_of_lt_of_le h1 h2
    simp only [hmem', true_and]

/-- C1: `collapse_board` converts every pending cell into `Classical(X)` when
its outcome bit (position `cell index` of the reversed best bitstring) is 1
and `Classical(O)` otherwise, leaves every classical or empty cell untouched,
resets the entanglement counter to 0, and returns the counts without failing
— also when no cell is pending, in which case no cell changes but the counter
is still reset. -/
theorem collapse_board_spec (b : Board) (counts : List (List Bool × Nat))
    (hwf : GridWF b.size b.cells) (hne : counts ≠ [])
    (hkeys : ∀ p ∈ counts, p.1.length = b.size ^ 2) :
    ∃ best b', pyMaxByVal counts = some best ∧
      collapseBoard b counts = some (b', counts) ∧
      b'.entanglementCount = 0 ∧ b'.size = b.size ∧
      b'.winningLines = b.winningLines ∧ GridWF b.size b'.cells ∧
      ∀ r c, r < b.size → c < b.size →
        ((∃ cell, cellNat b.cells r c = some cell ∧
            cell.isPending = true) →
          cellNat b'.cells r c = some (if best.reverse.getD
            (r * b.size + c) false then Cell.classical Mark.X
            else Cell.classical Mark.O)) ∧
        ((∀ cell, cellNat b.cells r c = some cell →
            cell.isPending = false) →
          cellNat b'.cells r c = cellNat b.cells r c) := by
  obtain ⟨best, w, b', hmax, _, _, hrun, hcnt, hsz, hwl, hwf', hpost⟩ :=
    collapseBoard_core b counts hwf hne hkeys
  refine ⟨best, b', hmax, hrun, hcnt, hsz, hwl, hwf', ?_⟩
  intro r c hr hc
  constructor
  · intro hpend
    rw [hpost r c hr hc, if_pos hpend]
  · intro hnp
    rw [hpost r c hr hc, if_neg ?_]
    rintro ⟨cl, hcl, htrue⟩
    rw [hnp cl hcl] at htrue
    exact Bool.noConfusion htrue

/-- Witness for `collapse_board_spec`: `boardPending3` with the concrete
counts `countsTwo`. -/
theorem collapse_board_spec_witness :
    ∃ best b', pyMaxByVal countsTwo = some best ∧
      collapseBoard boardPending3 countsTwo = some (b', countsTwo) ∧
      b'.entanglementCount = 0 ∧ b'.size = boardPending3.size ∧
      b'.winningLines = boardPending3.winningLines ∧
      GridWF boardPending3.size b'.cells ∧
      ∀ r c, r < boardPending3.size → c < boardPending3.size →
        ((∃ cell, cellNat boardPending3.cells r c = some cell ∧
            cell.isPending = true) →
          cellNat b'.cells r c = some (if best.reverse.getD
            (r * boardPending3.size + c) false then Cell.classical Mark.X
            else Cell.classical Mark.O)) ∧
        ((∀ cell, cellNat boardPending3.cells r c = some cell →
            cell.isPending = false) →
          cellNat b'.cells r c = cellNat boardPending3.cells r c) :=
  collapse_board_spec boardPending3 countsTwo (by decide) (by decide)
    (by decide)

/-- C3 counterexample: the spec says the committed bitstring is sampled from
the backend's weighted distribution, each outcome with probability
proportional to its weight. In `countsTwo` the outcome whose reversed bit 0
is 1 carries weight 1 of 4, so a proportional sampler commits it with
probability 1/4; but the code deterministically commits
`max(counts, key=counts.get)` — the all-zero outcome — so on `boardPending3`
the pending cell (0,0) always becomes `Classical(O)`, and the positive-weight
alternative (which would make it `Classical(X)`) is never committed. -/
theorem collapse_not_proportional_counterexample :
    ([false, false, false, false, false, false, false, false, true] :
        List Bool) ∈ specSampleSupport countsTwo ∧
    pyMaxByVal countsTwo = some (List.replicate 9 false) ∧
    List.replicate 9 false ≠
      ([false, false, false, false, false, false, false, false, true] :
        List Bool) ∧
    (collapseBoard boardPending3 countsTwo).map
        (fun p => cellNat p.1.cells 0 0) =
      some (some (Cell.classical Mark.O)) := by
  refine ⟨by decide, by decide, by decide, by decide⟩

/-- C3 amended: the resolution step commits the board mutation from the
single most-frequent outcome in the backend's counts (deterministic argmax,
not a proportional sample), reversed so that bit `i` of the committed
bitstring addresses cell index `i`: every pending cell at (r, c) is rewritten
from bit `r*size + c` of that reversed bitstring. -/
theorem collapse_commits_mode (b : Board) (counts : List (List Bool × Nat))
    (hwf : GridWF b.size b.cells) (hne : counts ≠ [])
    (hkeys : ∀ p ∈ counts, p.1.length = b.size ^ 2) :
    ∃ best w b', pyMaxByVal counts = some best ∧ (best, w) ∈ counts ∧
      (∀ p ∈ counts, p.2 ≤ w) ∧
      collapseBoard b counts = some (b', counts) ∧
      ∀ r c, r < b.size → c < b.size →
        (∃ cell, cellNat b.cells r c = some cell ∧
          cell.isPending = true) →
        cellNat b'.cells r c = some (if best.reverse.getD
          (r * b.size + c) false then Cell.classical Mark.X
          else Cell.classical Mark.O) := by
  obtain ⟨best, w, b', hmax, hmem, hall, hrun, _, _, _, _, hpost⟩ :=
    collapseBoard_core b counts hwf hne hkeys
  refine ⟨best, w, b', hmax, hmem, hall, hrun, ?_⟩
  intro r c hr hc hpend
  rw [hpost r c hr hc, if_pos hpend]

/-- Witness for `collapse_commits_mode`: `boardPending3` with `countsTwo`. -/
theorem collapse_commits_mode_witness :
    ∃ best w b', pyMaxByVal countsTwo = some best ∧
      (best, w) ∈ countsTwo ∧
      (∀ p ∈ countsTwo, p.2 ≤ w) ∧
      collapseBoard boardPending3 countsTwo = some (b', countsTwo) ∧
      ∀ r c, r < boardPending3.size → c < boardPending3.size →
        (∃ cell, cellNat boardPending3.cells r c = some cell ∧
          cell.isPending = true) →
        cellNat b'.cells r c = some (if best.reverse.getD
          (r * boardPending3.size + c) false then Cell.classical Mark.X
          else Cell.classical Mark.O) :=
  collapse_commits_mode boardPending3 countsTwo (by decide) (by decide)
    (by decide)

theorem pyRange_count (start stop step : Int) (cnt : Nat) (hstep : 0 < step)
    (hlo : (cnt : Int) * step < stop - start + step)
    (hhi : stop - start ≤ (cnt : Int) * step) :
    pyRange start stop step =
      some ((List.range cnt).map
        (fun (k : Nat) => start + ((k : Int)) * step)) := by
  have hr0 : (0 : Int) ≤ stop - start + step - 1 - (cnt : Int) * step := by
    omega
  have hr1 : stop - start + step - 1 - (cnt : Int) * step < step := by omega
  have hsplit : stop - start + step - 1 =
      (stop - start + step - 1 - (cnt : Int) * step) +
        (cnt : Int) * step := by ring
  have hcnt : ((stop - start + step - 1).fdiv step).toNat = cnt := by
    rw [Int.fdiv_eq_ediv _ (le_of_lt hstep), hsplit,
      Int.add_mul_ediv_right _ _ (by omega : step ≠ 0),
      Int.ediv_eq_zero_of_lt hr0 hr1]
    simp
  unfold pyRange
  rw [if_neg (by omega : ¬ step = 0), if_pos hstep, hcnt]

theorem List_mapM_option {α β : Type} (f : α → Option β) (g : α → β)
    (l : List α) (h : ∀ a ∈ l, f a = some (g a)) :
    l.mapM f = some (l.map g) := by
  induction l with
  | nil => rfl
  | cons a t ih =>
    rw [List.mapM_cons, h a (by simp), ih (fun x hx => h x (by simp [hx]))]
    rfl

theorem winningLinesPy_eq (n : Nat) (hn : n ≠ 1) :
    winningLinesPy n =
      some ((specCols n ++ specRows n ++ [specDiag n, specAntiDiag n]).map
        (fun l => l.map (fun (k : Nat) => (k : Int)))) := by
  rcases Nat.eq_zero_or_pos n with hz | hpos
  · subst hz
    decide
  have hn2 : 2 ≤ n := by omega
  have hsq : ((n : Int)) ^ 2 = (n : Int) * (n : Int) := sq ((n : Int))
  have h0n : (0 : Int) ≤ (n : Int) := Int.ofNat_nonneg n
  have hcols : (List.range n).mapM
      (fun (i : Nat) => pyRange ((i : Int)) (((n : Int)) ^ 2) ((n : Int))) =
      some ((List.range n).map
        (fun (i : Nat) => (List.range n).map
          (fun (k : Nat) => ((i : Int)) + ((k : Int)) * ((n : Int))))) := by
    refine List_mapM_option _ _ _ ?_
    intro i hi
    have hic : ((i : Int)) < (n : Int) := by
      exact_mod_cast List.mem_range.mp hi
    have h0i : (0 : Int) ≤ (i : Int) := Int.ofNat_nonneg i
    refine pyRange_count _ _ _ n ?_ ?_ ?_
    · exact_mod_cast hpos
    · rw [hsq]; linarith
    · rw [hsq]; linarith
  have hrows : (List.range n).mapM
      (fun (i : Nat) => pyRange (((i : Int)) * ((n : Int)))
        ((((i : Int)) + 1) * ((n : Int))) 1) =
      some ((List.range n).map
        (fun (i : Nat) => (List.range n).map
          (fun (k : Nat) => ((i : Int)) * ((n : Int)) + ((k : Int)) * 1))) := by
    refine List_mapM_option _ _ _ ?_
    intro i hi
    have he : (((i : Int)) + 1) * ((n : Int)) - ((i : Int)) * ((n : Int)) =
        (n : Int) := by ring
    refine pyRange_count _ _ _ n ?_ ?_ ?_
    · omega
    · rw [he]; linarith
    · rw [he]; linarith
  have hd1 : pyRange 0 (((n : Int)) ^ 2) (((n : Int)) + 1) =
      some ((List.range n).map
        (fun (k : Nat) => (0 : Int) + ((k : Int)) * (((n : Int)) + 1))) := by
    have hc : ((n : Int)) * (((n : Int)) + 1) =
        (n : Int) * (n : Int) + (n : Int) := by ring
    refine pyRange_count _ _ _ n ?_ ?_ ?_
    · omega
    · rw [hc, hsq]; linarith
    · rw [hc, hsq]; linarith
  have hd2 : pyRange (((n : Int)) - 1) (((n : Int)) ^ 2 - 1)
      (((n : Int)) - 1) =
      some ((List.range n).map
        (fun (k : Nat) => (((n : Int)) - 1) +
          ((k : Int)) * (((n : Int)) - 1))) := by
    have hn2i : (2 : Int) ≤ (n : Int) := by exact_mod_cast hn2
    have hc : ((n : Int)) * (((n : Int)) - 1) =
        (n : Int) * (n : Int) - (n : Int) := by ring
    refine pyRange_count _ _ _ n ?_ ?_ ?_
    · omega
    · rw [hc, hsq]; linarith
    · rw [hc, hsq]; linarith
  unfold winningLinesPy
  rw [hcols, Option.some_bind, hrows, Option.some_bind, hd1,
    Option.some_bind, hd2, Option.map_some']
  congr 1
  simp only [specCols, specRows, specDiag, specAntiDiag, List.map_append,
    List.map_cons, List.map_nil]
  congr 1
  congr 1
  · rw [List.map_map]
    refine List.map_congr_left ?_
    intro i hi
    show (List.range n).map
        (fun (k : Nat) => ((i : Int)) + ((k : Int)) * ((n : Int))) =
      ((List.range n).map (fun (r : Nat) => r * n + i)).map
        (fun (k : Nat) => (k : Int))
    rw [List.map_map]
    refine List.map_congr_left ?_
    intro k hk
    show ((i : Int)) + ((k : Int)) * ((n : Int)) = ((k * n + i : Nat) : Int)
    push_cast
    ring
  · rw [List.map_map]
    refine List.map_congr_left ?_
    intro i hi
    show (List.range n).map
        (fun (k : Nat) => ((i : Int)) * ((n : Int)) + ((k : Int)) * 1) =
      ((List.range n).map (fun (c : Nat) => i * n + c)).map
        (fun (k : Nat) => (k : Int))
    rw [List.map_map]
    refine List.map_congr_left ?_
    intro k hk
    show ((i : Int)) * ((n : Int)) + ((k : Int)) * 1 =
      ((i * n + k : Nat) : Int)
    push_cast
    ring
  congr 1
  · show (List.range n).map
        (fun (k : Nat) => (0 : Int) + ((k : Int)) * (((n : Int)) + 1)) =
      ((List.range n).map (fun (i : Nat) => i * n + i)).map
        (fun (k : Nat) => (k : Int))
    rw [List.map_map]
    refine List.map_congr_left ?_
    intro k hk
    show (0 : Int) + ((k : Int)) * (((n : Int)) + 1) =
      ((k * n + k : Nat) : Int)
    push_cast
    ring
  congr 1
  show (List.range n).map
      (fun (k : Nat) => (((n : Int)) - 1) + ((k : Int)) * (((n : Int)) - 1)) =
    ((List.range n).map (fun (i : Nat) => i * n + (n - 1 - i))).map
      (fun (k : Nat) => (k : Int))
  rw [List.map_map]
  refine List.map_congr_left ?_
  intro k hk
  have hklt : k < n := List.mem_range.mp hk
  show (((n : Int)) - 1) + ((k : Int)) * (((n : Int)) - 1) =
    ((k * n + (n - 1 - k) : Nat) : Int)
  have hk1 : k ≤ n - 1 := by omega
  have h1n : 1 ≤ n := by omega
  push_cast [Nat.cast_sub hk1, Nat.cast_sub h1n]
  ring

/-- C10 counterexample: constructing `Board(1)` does not succeed — the
anti-diagonal expression `range(size-1, size**2-1, size-1)` has step 0 for
size 1, so the constructor raises `ValueError` (modelled `none`) instead of
producing a board. -/
theorem board_init_one_counterexample : Board.init 1 = none := by decide

/-- C10 amended: for every board size other than 1, construction succeeds and
`winning_lines` is computed once as exactly the `N` column index-tuples, the
`N` row index-tuples, and the two diagonal index-tuples of the `N×N` grid (in
that order); for size 1 the constructor raises. No operation of the board —
classical move, swap, entangle or collapse — ever modifies `winning_lines`
afterwards. -/
theorem board_init_winning_lines (n : Nat) (hn : n ≠ 1) :
    (∃ b, Board.init n = some b ∧ b.size = n ∧ b.entanglementCount = 0 ∧
      b.winningLines = (specCols n ++ specRows n ++
        [specDiag n, specAntiDiag n]).map
          (fun l => l.map (fun (k : Nat) => (k : Int)))) ∧
    (∀ b row col mark res, makeClassicalMove b row col mark = some res →
      res.1.winningLines = b.winningLines) ∧
    (∀ b r1 c1 r2 c2 res, makeSwapMove b r1 c1 r2 c2 = some res →
      res.1.winningLines = b.winningLines) ∧
    (∀ b ps mark res, makeEntangledMove b ps mark = some res →
      res.1.winningLines = b.winningLines) ∧
    (∀ b counts res, collapseBoard b counts = some res →
      res.1.winningLines = b.winningLines) := by
  refine ⟨?_, ?_, ?_, ?_, ?_⟩
  · have hinit : Board.init n = some
        { size := n
          entanglementCount := 0
          cells := initCells n
          winningLines := (specCols n ++ specRows n ++
            [specDiag n, specAntiDiag n]).map
              (fun l => l.map (fun (k : Nat) => (k : Int)))
          circuit := [Gate.reset, Gate.barrier] } := by
      unfold Board.init
      rw [winningLinesPy_eq n hn, Option.map_some']
    exact ⟨_, hinit, rfl, rfl, rfl⟩
  · intro b row col mark res h
    simp only [makeClassicalMove, Option.bind_eq_some] at h
    obtain ⟨cur, hcur, h2⟩ := h
    by_cases hemp : cur = Cell.empty
    · rw [if_pos hemp, Option.map_eq_some'] at h2
      obtain ⟨cells', hcells', hres⟩ := h2
      rw [← hres]
    · rw [if_neg hemp] at h2
      rw [← Option.some.inj h2]
  · intro b r1 c1 r2 c2 res h
    simp only [makeSwapMove, Option.bind_eq_some] at h
    obtain ⟨cell1, hcell1, h2⟩ := h
    by_cases he1 : cell1 = Cell.empty
    · rw [if_pos he1] at h2
      rw [← Option.some.inj h2]
    · rw [if_neg he1] at h2
      simp only [Option.bind_eq_some] at h2
      obtain ⟨cell2, hcell2, h3⟩ := h2
      by_cases he2 : cell2 = Cell.empty
      · rw [if_pos he2] at h3
        rw [← Option.some.inj h3]
      · rw [if_neg he2] at h3
        simp only [Option.bind_eq_some, Option.map_eq_some'] at h3
        obtain ⟨cells1, hcells1, cells2, hcells2, hres⟩ := h3
        rw [← hres]
  · intro b ps mark res h
    simp only [makeEntangledMove] at h
    by_cases hlen : ¬ (ps.length = 2 ∨ ps.length = 3)
    · rw [if_pos hlen] at h
      rw [← Option.some.inj h]
    · rw [if_neg hlen] at h
      simp only [Option.bind_eq_some] at h
      obtain ⟨occ, hocc, h2⟩ := h
      by_cases ho : occ = true
      · rw [if_pos ho] at h2
        rw [← Option.some.inj h2]
      · rw [if_neg ho] at h2
        by_cases hnd : ¬ ps.Nodup
        · rw [if_pos hnd] at h2
          rw [← Option.some.inj h2]
        · rw [if_neg hnd, Option.map_eq_some'] at h2
          obtain ⟨cells', hcells', hres⟩ := h2
          rw [← hres]
  · intro b counts res h
    simp only [collapseBoard, Option.bind_eq_some] at h
    obtain ⟨best, hbest, h2⟩ := h
    simp only [Option.map_eq_some'] at h2
    obtain ⟨cells', hcells', hres⟩ := h2
    rw [← hres]

/-- Witness for `board_init_winning_lines` at the default size 3. -/
theorem board_init_winning_lines_witness :
    (∃ b, Board.init 3 = some b ∧ b.size = 3 ∧ b.entanglementCount = 0 ∧
      b.winningLines = (specCols 3 ++ specRows 3 ++
        [specDiag 3, specAntiDiag 3]).map
          (fun l => l.map (fun (k : Nat) => (k : Int)))) ∧
    (∀ b row col mark res, makeClassicalMove b row col mark = some res →
      res.1.winningLines = b.winningLines) ∧
    (∀ b r1 c1 r2 c2 res, makeSwapMove b r1 c1 r2 c2 = some res →
      res.1.winningLines = b.winningLines) ∧
    (∀ b ps mark res, makeEntangledMove b ps mark = some res →
      res.1.winningLines = b.winningLines) ∧
    (∀ b counts res, collapseBoard b counts = some res →
      res.1.winningLines = b.winningLines) :=
  board_init_winning_lines 3 (by decide)
